import Mathlib

/-!
Verification of the Image-idea-to-Minecraft voxel pipeline.

This file gives a shallow embedding, in Lean 4, of the deterministic core of
the repository:

* `src/utils/html.ts` — the three text post-processing helpers
  (`extractHtmlFromText`, `hideBodyText`, `zoomCamera`);
* `src/services/gemini.ts` — the scene template `VOXEL_TEMPLATE`: the
  `addBlock` placement primitive, the injected-code execution closure with
  its bedrock fallback, the recipe-book aggregates (`generateRecipeBook`),
  the camera framing in `init`, and the environment message handler
  (sun/moon intensities and sky color bands).

JavaScript numbers are modelled as rationals (`ℚ`), JS strings as Lean
`String` / `List Char`, JS objects used as dictionaries as association
lists that preserve insertion order, and the externally supplied
block-placement instruction stream as a small deep-embedded command
language (`AiCode`) that can place blocks, throw, and define / call the
conventional top-level callable `generateWorld`.
-/

set_option maxRecDepth 20000

namespace VoxelPipeline

/-! ## Data model: voxels and the placement primitive (gemini.ts lines 296-300) -/

/-- A placed block, mirroring the runtime objects pushed into the template's
`voxels` array: `{x, y, z, type}`. -/
structure Voxel where
  x : Int
  y : Int
  z : Int
  type : String
deriving DecidableEq, Repr

/-- `.toLowerCase().replace(/ /g, '_')` applied to a type string: lowercase
every character, then replace every space with an underscore. -/
def normalizeBlockType (s : String) : String :=
  ⟨(s.toList.map Char.toLower).map (fun c => if c = ' ' then '_' else c)⟩

/-- `addBlock(x, y, z, type)` from `VOXEL_TEMPLATE`:
`type = (type || 'stone').toLowerCase().replace(/ /g, '_'); voxels.push({x,y,z,type})`.
The `type` argument is an `Option String`: `none` models the JS `undefined`
or `null` argument; the JS `||` operator also treats the empty string as
falsy, which is modelled by the inner `if`. -/
def addBlock (vs : List Voxel) (x y z : Int) (ty : Option String) : List Voxel :=
  let t0 := match ty with
    | none => "stone"
    | some s => if s = "" then "stone" else s
  vs ++ [⟨x, y, z, normalizeBlockType t0⟩]

/-! ## Environment message handler (gemini.ts lines 549-599) -/

/-- Sun intensity as a function of the computed sun height
`sy = Math.sin(angle) * 120`: `const isDay = sy > -10; sunLight.intensity = isDay ? 1.2 : 0`. -/
def sunIntensityOf (sy : ℚ) : ℚ := if sy > -10 then 6/5 else 0

/-- Moon intensity as a function of the computed sun height:
`moonLight.intensity = isDay ? 0 : 0.5`. -/
def moonIntensityOf (sy : ℚ) : ℚ := if sy > -10 then 0 else 1/2

/-- The five discrete sky bands selected by the environment handler; the
names follow the comments on the branches of the handler. -/
inductive SkyBand where
  | dawn
  | day
  | sunset
  | night
  | sunrise
deriving DecidableEq, Repr

/-- Band selection from the `time` (`e.data.sunlight`) value, mirroring the
branch structure `if (time < 0.1) ... else if (time < 0.4) ... else if
(time < 0.55) ... else if (time < 0.9) ... else ...`. -/
def skyBand (time : ℚ) : SkyBand :=
  if time < 1/10 then .dawn
  else if time < 2/5 then .day
  else if time < 11/20 then .sunset
  else if time < 9/10 then .night
  else .sunrise

/-- The hue/saturation/lightness triple the handler feeds to `setHSL` for
each band (dawn `(0.05, 0.8, 0.5)`, day `(0.6, 0.7, 0.8)`, sunset
`(0.85, 0.6, 0.6)`, night `(0.65, 0.5, 0.05)`, sunrise `(0.05, 0.8, 0.5)`). -/
def bandHSL : SkyBand → ℚ × ℚ × ℚ
  | .dawn => (1/20, 4/5, 1/2)
  | .day => (3/5, 7/10, 4/5)
  | .sunset => (17/20, 3/5, 3/5)
  | .night => (13/20, 1/2, 1/20)
  | .sunrise => (1/20, 4/5, 1/2)

/-- The sky/fog HSL triple computed by the handler directly from `time`,
translated branch by branch from the source. -/
def skyHSL (time : ℚ) : ℚ × ℚ × ℚ :=
  if time < 1/10 then (1/20, 4/5, 1/2)
  else if time < 2/5 then (3/5, 7/10, 4/5)
  else if time < 11/20 then (17/20, 3/5, 3/5)
  else if time < 9/10 then (13/20, 1/2, 1/20)
  else (1/20, 4/5, 1/2)

/-! ## Claim theorems: C10, C2, C9 -/

/-- C10: for every call to `addBlock`: a missing (`undefined`/`null`) or
empty-string type argument stores type `"stone"`; any other string is
stored lowercased with every space replaced by an underscore; and the call
appends exactly one voxel, leaving all existing entries unchanged. -/
theorem addBlock_normalization :
    (∀ (vs : List Voxel) (x y z : Int),
        addBlock vs x y z none = vs ++ [⟨x, y, z, "stone"⟩]) ∧
    (∀ (vs : List Voxel) (x y z : Int),
        addBlock vs x y z (some "") = vs ++ [⟨x, y, z, "stone"⟩]) ∧
    (∀ (vs : List Voxel) (x y z : Int) (s : String), s ≠ "" →
        addBlock vs x y z (some s) = vs ++ [⟨x, y, z, normalizeBlockType s⟩]) ∧
    (∀ (vs : List Voxel) (x y z : Int) (ty : Option String),
        (addBlock vs x y z ty).length = vs.length + 1 ∧
        (addBlock vs x y z ty).take vs.length = vs) := by
  have hstone : normalizeBlockType "stone" = "stone" := by decide
  refine ⟨?_, ?_, ?_, ?_⟩
  · intro vs x y z; simp [addBlock, hstone]
  · intro vs x y z; simp [addBlock, hstone]
  · intro vs x y z s hs
    simp only [addBlock, if_neg hs]
  · intro vs x y z ty
    constructor
    · simp [addBlock]
    · simp [addBlock, List.take_append]

/-- Witness for `addBlock_normalization` at concrete inputs, discharging the
nonempty-string hypothesis at `"Oak Planks"`. -/
theorem addBlock_normalization_witness :
    addBlock [] 0 0 0 (some "Oak Planks") = [⟨0, 0, 0, "oak_planks"⟩] := by
  have h := addBlock_normalization.2.2.1 [] 0 0 0 "Oak Planks" (by decide)
  rw [h]
  decide

/-- C2 counterexample: the claim says `sunlight = 0.45` selects the night
band, but the handler's branch `time < 0.55` classifies `0.45` as the
sunset band, which is distinct from the night band. -/
theorem skyBand_at_045_cex :
    skyBand (9/20) = SkyBand.sunset ∧ SkyBand.sunset ≠ SkyBand.night := by
  constructor
  · norm_num [skyBand]
  · decide

/-- C2 (amended): `sunlight = 0.0` selects the dawn band, `sunlight = 0.45`
selects the sunset band (the night band is the interval `[0.55, 0.9)`), and
the sky/fog color is a fixed hue/saturation/lightness triple per band —
discrete stepping with no interpolation, i.e. the computed HSL factors
through the band. -/
theorem skyBand_thresholds :
    skyBand 0 = SkyBand.dawn ∧
    skyBand (9/20) = SkyBand.sunset ∧
    (∀ t : ℚ, 11/20 ≤ t → t < 9/10 → skyBand t = SkyBand.night) ∧
    (∀ t : ℚ, skyHSL t = bandHSL (skyBand t)) := by
  refine ⟨by norm_num [skyBand], by norm_num [skyBand], ?_, ?_⟩
  · intro t h1 h2
    have hn1 : ¬ t < 1/10 := by linarith
    have hn2 : ¬ t < 2/5 := by linarith
    have hn3 : ¬ t < 11/20 := by linarith
    rw [skyBand, if_neg hn1, if_neg hn2, if_neg hn3, if_pos h2]
  · intro t
    simp only [skyHSL, skyBand]
    split_ifs <;> rfl

/-- C9: for every computed sun height `sy` (hence for every environment
message, whatever `Math.sin` returns for its `sunlight` value), the sun and
moon are never both at non-zero intensity: the sun is lit (intensity `1.2`)
and the moon dark exactly when `sy` is above the small negative threshold
`-10`, and otherwise the moon is lit (intensity `0.5`) and the sun dark. -/
theorem sun_moon_exclusive :
    ∀ sy : ℚ,
      (sunIntensityOf sy = 0 ∨ moonIntensityOf sy = 0) ∧
      (sunIntensityOf sy ≠ 0 ↔ sy > -10) ∧
      (moonIntensityOf sy ≠ 0 ↔ ¬ sy > -10) := by
  intro sy
  by_cases h : sy > -10
  · refine ⟨Or.inr ?_, ?_, ?_⟩ <;> norm_num [sunIntensityOf, moonIntensityOf, h]
  · refine ⟨Or.inl ?_, ?_, ?_⟩ <;> norm_num [sunIntensityOf, moonIntensityOf, h]

/-! ## Voxel Command Interpreter (gemini.ts lines 462-527)

The injected AI code is arbitrary sequential JS whose only capability is
`addBlock`, optionally defining and/or calling one top-level callable
`generateWorld` (function declarations hoist, so a definition is visible
to the whole body). It is deep-embedded as `AiCode`: a top-level statement
either places a block, throws, or calls `generateWorld`; the optional
`generateWorld` body places blocks or throws. -/

/-- A primitive statement of the injected code: one `addBlock` call or a
thrown runtime error. -/
inductive BlockInstr where
  | place (x y z : Int) (ty : Option String)
  | throwErr (msg : String)
deriving DecidableEq, Repr

/-- A top-level statement of the injected code: a primitive statement or a
call of the conventional callable `generateWorld`. -/
inductive TopInstr where
  | basic (i : BlockInstr)
  | callGenerateWorld
deriving DecidableEq, Repr

/-- An injected instruction stream: its top-level statements plus the body
of `generateWorld` when the text defines one. -/
structure AiCode where
  body : List TopInstr
  generateWorld : Option (List BlockInstr)

/-- Run a list of primitive statements against the (mutable, global)
`voxels` array. A throw stops execution; the voxels pushed before the
throw are retained, as for a JS exception escaping past `voxels.push`
calls. Returns the voxel list and the error, if one was thrown. -/
def runBlockInstrs : List BlockInstr → List Voxel → List Voxel × Option String
  | [], vs => (vs, none)
  | .place x y z ty :: rest, vs => runBlockInstrs rest (addBlock vs x y z ty)
  | .throwErr m :: _, vs => (vs, some m)

/-- Run the top-level statements. The `called` flag records whether the
instruction text itself has invoked `generateWorld` (the source never
consults such a flag; it exists so claims about "already invoked" can be
stated). Calling `generateWorld` when the text defines none throws, as the
JS `ReferenceError` would. -/
def runTopInstrs (gw : Option (List BlockInstr)) :
    List TopInstr → List Voxel → Bool → List Voxel × Bool × Option String
  | [], vs, called => (vs, called, none)
  | .basic (.place x y z ty) :: rest, vs, called =>
      runTopInstrs gw rest (addBlock vs x y z ty) called
  | .basic (.throwErr m) :: _, vs, called => (vs, called, some m)
  | .callGenerateWorld :: rest, vs, called =>
      match gw with
      | none => (vs, called, some "generateWorld is not defined")
      | some b =>
          match runBlockInstrs b vs with
          | (vs2, none) => runTopInstrs gw rest vs2 true
          | (vs2, some m) => (vs2, true, some m)

/-- The injected-code closure of `init` (lines 464-471): run the AI code,
then — `if (typeof generateWorld === 'function') { generateWorld(); }` —
call `generateWorld` whenever it is defined. The source checks only that
the callable exists, not whether the instruction text already invoked it,
so a body-level call is followed by a second call here. A throw escapes
the closure and skips the trailing call. -/
def runInjected (p : AiCode) : List Voxel × Option String :=
  match runTopInstrs p.generateWorld p.body [] false with
  | (vs, _, some m) => (vs, some m)
  | (vs, _, none) =>
      match p.generateWorld with
      | some b => runBlockInstrs b vs
      | none => (vs, none)

/-- The fallback structure of `init` (lines 475-485): a 5×5 bedrock
platform at `y = 0` centered on the origin (the two nested loops
`for x in -2..2, for z in -2..2`) plus the two-plank marker at
`(0, 1, 0)` and `(0, 2, 0)`. -/
def fallbackVoxels : List Voxel :=
  let base := (List.range 5).foldl (fun acc dx =>
    (List.range 5).foldl (fun acc2 dz =>
      addBlock acc2 ((dx : Int) - 2) 0 ((dz : Int) - 2) (some "bedrock")) acc) []
  addBlock (addBlock base 0 1 0 (some "planks_oak")) 0 2 0 (some "planks_oak")

/-- Result of the voxel-placement phase of `init`: the final `voxels` array
and whether the `catch` block fired (error box shown). -/
structure InitOutcome where
  voxels : List Voxel
  errorShown : Bool
deriving DecidableEq, Repr

/-- The voxel-relevant part of `init` (lines 403-527): everything runs in
one `try`; a throw from the injected closure jumps to the `catch` block,
which only displays the error — the fallback check `if (voxels.length
=== 0)` is reached only when the injected code returned normally. -/
def initVoxels (p : AiCode) : InitOutcome :=
  match runInjected p with
  | (vs, some _) => ⟨vs, true⟩
  | (vs, none) => if vs = [] then ⟨fallbackVoxels, false⟩ else ⟨vs, false⟩

/-- The instruction stream `throw new Error('boom')`. -/
def throwingCode : AiCode := ⟨[.basic (.throwErr "boom")], none⟩

/-- C1 counterexample: an instruction string that throws before placing any
block leaves the voxel list empty — the catch block shows the error but
synthesizes no fallback platform, so the resulting voxel list is empty and
in particular does not contain the fallback footprint. -/
theorem interp_throw_leaves_empty_cex :
    (initVoxels throwingCode).voxels = [] ∧
    (initVoxels throwingCode).errorShown = true := by
  constructor <;> rfl

/-- C1 (amended): for every instruction stream whose execution completes
without throwing, if it placed zero voxels then the resulting voxel list is
the deterministic fallback structure: non-empty, containing bedrock at
every `(x, 0, z)` with `x, z ∈ [-2, 2]` and the plank marker at `(0, 1, 0)`
and `(0, 2, 0)`. (If execution throws, the error is displayed instead and
no fallback is synthesized.) -/
theorem interp_fallback_on_empty_success (p : AiCode)
    (hok : (runInjected p).2 = none) (hempty : (runInjected p).1 = []) :
    (initVoxels p).voxels ≠ [] ∧
    (∀ x z : Int, -2 ≤ x → x ≤ 2 → -2 ≤ z → z ≤ 2 →
        (⟨x, 0, z, "bedrock"⟩ : Voxel) ∈ (initVoxels p).voxels) ∧
    (⟨0, 1, 0, "planks_oak"⟩ : Voxel) ∈ (initVoxels p).voxels ∧
    (⟨0, 2, 0, "planks_oak"⟩ : Voxel) ∈ (initVoxels p).voxels := by
  have hpair : runInjected p = ([], none) := by
    rw [← Prod.mk.eta (p := runInjected p), hok, hempty]
  have hout : initVoxels p = ⟨fallbackVoxels, false⟩ := by
    unfold initVoxels
    rw [hpair]
    rfl
  rw [hout]
  refine ⟨by decide, ?_, by decide, by decide⟩
  intro x z hx1 hx2 hz1 hz2
  have hx : x = -2 ∨ x = -1 ∨ x = 0 ∨ x = 1 ∨ x = 2 := by omega
  have hz : z = -2 ∨ z = -1 ∨ z = 0 ∨ z = 1 ∨ z = 2 := by omega
  rcases hx with rfl | rfl | rfl | rfl | rfl <;>
    rcases hz with rfl | rfl | rfl | rfl | rfl <;> decide

/-- Witness for `interp_fallback_on_empty_success` at the empty instruction
stream, whose execution trivially succeeds with zero voxels. -/
theorem interp_fallback_witness :
    (initVoxels ⟨[], none⟩).voxels ≠ [] ∧
    (⟨-2, 0, -2, "bedrock"⟩ : Voxel) ∈ (initVoxels ⟨[], none⟩).voxels ∧
    (⟨0, 1, 0, "planks_oak"⟩ : Voxel) ∈ (initVoxels ⟨[], none⟩).voxels := by
  have h := interp_fallback_on_empty_success ⟨[], none⟩ rfl rfl
  exact ⟨h.1, h.2.1 (-2) (-2) (by decide) (by decide) (by decide) (by decide), h.2.2.1⟩

/-- The instruction stream
`function generateWorld() { addBlock(0, 0, 0, 'stone'); } generateWorld();`:
it defines the top-level callable and also invokes it itself. -/
def definesAndCallsGW : AiCode :=
  ⟨[.callGenerateWorld], some [.place 0 0 0 (some "stone")]⟩

/-- C3: evaluation at the failing input. The instruction text defines
`generateWorld` and already invokes it once; the template's trailing
`if (typeof generateWorld === 'function') generateWorld();` checks only
existence, so it invokes the callable a second time and the block is
placed twice — the claim (and the source's own comment, "If the AI defined
a function but didn't call it, call it now") requires a single placement. -/
theorem generateWorld_double_call_eval :
    (initVoxels definesAndCallsGW).voxels =
      [⟨0, 0, 0, "stone"⟩, ⟨0, 0, 0, "stone"⟩] ∧
    (runTopInstrs definesAndCallsGW.generateWorld definesAndCallsGW.body [] false).2.1 = true := by
  constructor <;> rfl

/-! ## Camera framing (gemini.ts lines 491-517)

After placing all voxel meshes, `init` computes the axis-aligned bounding
box of the voxel positions (a `forEach` fold starting from `±Infinity`;
over a non-empty list this equals a fold starting from the first element),
then either frames the box or falls back to a fixed camera. -/

/-- The camera placement computed by `init`: `controls.target.set(cx, cy, cz)`
and `camera.position.set(...)`. -/
structure CamSetup where
  posX : ℚ
  posY : ℚ
  posZ : ℚ
  targetX : ℚ
  targetY : ℚ
  targetZ : ℚ
deriving DecidableEq, Repr

/-- The bounding-box / camera logic of `init`: for a non-empty voxel list,
target the box center `((minX+maxX)/2, ...)` and place the camera at
`(cx + size + 15, cy + size + 10, cz + size + 15)` where `size` is the
largest of the three spans; for an empty list, `camera.position.set(20,20,20)`
and origin target. -/
def frameCamera (vs : List Voxel) : CamSetup :=
  match vs with
  | [] => ⟨20, 20, 20, 0, 0, 0⟩
  | v :: rest =>
      let minX := rest.foldl (fun a w => min a w.x) v.x
      let maxX := rest.foldl (fun a w => max a w.x) v.x
      let minY := rest.foldl (fun a w => min a w.y) v.y
      let maxY := rest.foldl (fun a w => max a w.y) v.y
      let minZ := rest.foldl (fun a w => min a w.z) v.z
      let maxZ := rest.foldl (fun a w => max a w.z) v.z
      let cx : ℚ := ((minX + maxX : Int) : ℚ) / 2
      let cy : ℚ := ((minY + maxY : Int) : ℚ) / 2
      let cz : ℚ := ((minZ + maxZ : Int) : ℚ) / 2
      let size : ℚ := ((max (maxX - minX) (max (maxY - minY) (maxZ - minZ)) : Int) : ℚ)
      ⟨cx + size + 15, cy + size + 10, cz + size + 15, cx, cy, cz⟩

/-- A fold of `min` over voxel fields stays below its seed and every
element's field. -/
theorem foldl_min_le (f : Voxel → Int) (xs : List Voxel) (a : Int) :
    xs.foldl (fun b w => min b (f w)) a ≤ a ∧
    ∀ w ∈ xs, xs.foldl (fun b w => min b (f w)) a ≤ f w := by
  induction xs generalizing a with
  | nil => simp
  | cons y ys ih =>
      have h := ih (min a (f y))
      refine ⟨le_trans h.1 (min_le_left a (f y)), ?_⟩
      intro w hw
      rcases List.mem_cons.mp hw with rfl | hw
      · exact le_trans h.1 (min_le_right a (f w))
      · exact h.2 w hw

/-- A fold of `min` over voxel fields returns its seed or some element's
field. -/
theorem foldl_min_mem (f : Voxel → Int) (xs : List Voxel) (a : Int) :
    xs.foldl (fun b w => min b (f w)) a = a ∨
    ∃ w ∈ xs, xs.foldl (fun b w => min b (f w)) a = f w := by
  induction xs generalizing a with
  | nil => simp
  | cons y ys ih =>
      rw [List.foldl_cons]
      rcases ih (min a (f y)) with h | h
      · rcases min_cases a (f y) with ⟨hm, _⟩ | ⟨hm, _⟩
        · exact Or.inl (by rw [h, hm])
        · exact Or.inr ⟨y, List.mem_cons_self y ys, by rw [h, hm]⟩
      · obtain ⟨w, hw, heq⟩ := h
        exact Or.inr ⟨w, List.mem_cons_of_mem y hw, heq⟩

/-- A fold of `max` over voxel fields stays above its seed and every
element's field. -/
theorem le_foldl_max (f : Voxel → Int) (xs : List Voxel) (a : Int) :
    a ≤ xs.foldl (fun b w => max b (f w)) a ∧
    ∀ w ∈ xs, f w ≤ xs.foldl (fun b w => max b (f w)) a := by
  induction xs generalizing a with
  | nil => simp
  | cons y ys ih =>
      have h := ih (max a (f y))
      refine ⟨le_trans (le_max_left a (f y)) h.1, ?_⟩
      intro w hw
      rcases List.mem_cons.mp hw with rfl | hw
      · exact le_trans (le_max_right a (f w)) h.1
      · exact h.2 w hw

/-- A fold of `max` over voxel fields returns its seed or some element's
field. -/
theorem foldl_max_mem (f : Voxel → Int) (xs : List Voxel) (a : Int) :
    xs.foldl (fun b w => max b (f w)) a = a ∨
    ∃ w ∈ xs, xs.foldl (fun b w => max b (f w)) a = f w := by
  induction xs generalizing a with
  | nil => simp
  | cons y ys ih =>
      rw [List.foldl_cons]
      rcases ih (max a (f y)) with h | h
      · rcases max_cases a (f y) with ⟨hm, _⟩ | ⟨hm, _⟩
        · exact Or.inl (by rw [h, hm])
        · exact Or.inr ⟨y, List.mem_cons_self y ys, by rw [h, hm]⟩
      · obtain ⟨w, hw, heq⟩ := h
        exact Or.inr ⟨w, List.mem_cons_of_mem y hw, heq⟩

/-- The fold computing a bounding-box minimum attains a voxel field value. -/
theorem foldAcc_min_mem (f : Voxel → Int) (v : Voxel) (rest : List Voxel) :
    rest.foldl (fun b w => min b (f w)) (f v) ∈ (v :: rest).map f := by
  rcases foldl_min_mem f rest (f v) with h | ⟨w, hw, h⟩
  · exact List.mem_map.mpr ⟨v, List.mem_cons_self v rest, h.symm⟩
  · exact List.mem_map.mpr ⟨w, List.mem_cons_of_mem v hw, h.symm⟩

/-- The fold computing a bounding-box maximum attains a voxel field value. -/
theorem foldAcc_max_mem (f : Voxel → Int) (v : Voxel) (rest : List Voxel) :
    rest.foldl (fun b w => max b (f w)) (f v) ∈ (v :: rest).map f := by
  rcases foldl_max_mem f rest (f v) with h | ⟨w, hw, h⟩
  · exact List.mem_map.mpr ⟨v, List.mem_cons_self v rest, h.symm⟩
  · exact List.mem_map.mpr ⟨w, List.mem_cons_of_mem v hw, h.symm⟩

/-- The bounding-box folds bound every voxel of the list. -/
theorem foldAcc_bounds (f : Voxel → Int) (v : Voxel) (rest : List Voxel) :
    ∀ w ∈ v :: rest,
      rest.foldl (fun b u => min b (f u)) (f v) ≤ f w ∧
      f w ≤ rest.foldl (fun b u => max b (f u)) (f v) := by
  intro w hw
  rcases List.mem_cons.mp hw with rfl | hw
  · exact ⟨(foldl_min_le f rest (f w)).1, (le_foldl_max f rest (f w)).1⟩
  · exact ⟨(foldl_min_le f rest (f v)).2 w hw, (le_foldl_max f rest (f v)).2 w hw⟩

/-- The concrete voxel set of the spec's framing test: it spans
`x ∈ [-2,2]`, `y ∈ [0,3]`, `z ∈ [-1,1]`. -/
def spanningVoxels : List Voxel :=
  [⟨-2, 0, -1, "stone"⟩, ⟨2, 3, 1, "stone"⟩]

set_option maxHeartbeats 1600000 in
/-- C8: camera framing. (a) For every non-empty voxel list the look-at
target is the bounding-box center of actual extremes (values attained by
some voxel and bounding all voxels) and the camera sits at that center
plus `(size+15, size+10, size+15)` where `size` is the largest span.
(b) For the spec's concrete spanning set the largest span is `4`, the
target is the center `(0, 3/2, 0)` and the camera is at `(19, 31/2, 19)`.
(c) For an empty voxel list the fixed default `(20,20,20)` with origin
target is used. -/
theorem frameCamera_spec :
    (∀ (v : Voxel) (rest : List Voxel),
      ∃ mX MX mY MY mZ MZ : Int,
        mX ∈ (v :: rest).map (·.x) ∧ MX ∈ (v :: rest).map (·.x) ∧
        mY ∈ (v :: rest).map (·.y) ∧ MY ∈ (v :: rest).map (·.y) ∧
        mZ ∈ (v :: rest).map (·.z) ∧ MZ ∈ (v :: rest).map (·.z) ∧
        (∀ w ∈ v :: rest,
          mX ≤ w.x ∧ w.x ≤ MX ∧ mY ≤ w.y ∧ w.y ≤ MY ∧ mZ ≤ w.z ∧ w.z ≤ MZ) ∧
        frameCamera (v :: rest) =
          ⟨((mX + MX : Int) : ℚ) / 2 + ((max (MX - mX) (max (MY - mY) (MZ - mZ)) : Int) : ℚ) + 15,
           ((mY + MY : Int) : ℚ) / 2 + ((max (MX - mX) (max (MY - mY) (MZ - mZ)) : Int) : ℚ) + 10,
           ((mZ + MZ : Int) : ℚ) / 2 + ((max (MX - mX) (max (MY - mY) (MZ - mZ)) : Int) : ℚ) + 15,
           ((mX + MX : Int) : ℚ) / 2, ((mY + MY : Int) : ℚ) / 2, ((mZ + MZ : Int) : ℚ) / 2⟩) ∧
    frameCamera spanningVoxels = ⟨19, 31/2, 19, 0, 3/2, 0⟩ ∧
    frameCamera [] = ⟨20, 20, 20, 0, 0, 0⟩ := by
  refine ⟨?_, by norm_num [frameCamera, spanningVoxels], rfl⟩
  intro v rest
  refine ⟨rest.foldl (fun a (w : Voxel) => min a w.x) v.x,
          rest.foldl (fun a (w : Voxel) => max a w.x) v.x,
          rest.foldl (fun a (w : Voxel) => min a w.y) v.y,
          rest.foldl (fun a (w : Voxel) => max a w.y) v.y,
          rest.foldl (fun a (w : Voxel) => min a w.z) v.z,
          rest.foldl (fun a (w : Voxel) => max a w.z) v.z,
          foldAcc_min_mem (·.x) v rest, foldAcc_max_mem (·.x) v rest,
          foldAcc_min_mem (·.y) v rest, foldAcc_max_mem (·.y) v rest,
          foldAcc_min_mem (·.z) v rest, foldAcc_max_mem (·.z) v rest,
          ?_, rfl⟩
  intro w hw
  obtain ⟨hx1, hx2⟩ := foldAcc_bounds (·.x) v rest w hw
  obtain ⟨hy1, hy2⟩ := foldAcc_bounds (·.y) v rest w hw
  obtain ⟨hz1, hz2⟩ := foldAcc_bounds (·.z) v rest w hw
  exact ⟨hx1, hx2, hy1, hy2, hz1, hz2⟩

/-! ## Build-Guide Indexer (gemini.ts lines 365-400, `generateRecipeBook`)

`counts` and `layers` are plain JS objects used as dictionaries; they are
modelled as association lists in insertion order. `Object.keys(layers)` is
sorted with the numeric comparator `(a,b) => parseInt(a) - parseInt(b)`,
modelled by an insertion sort on the layer key (extensionally the same
ascending order; the keys are distinct, so stability is irrelevant). -/

/-- `counts[t] = (counts[t]||0)+1` on an insertion-ordered dictionary:
increment the entry of key `t`, or append a fresh entry `(t, 1)`. -/
def bumpCount : List (String × Nat) → String → List (String × Nat)
  | [], t => [(t, 1)]
  | (k, n) :: rest, t => if k = t then (k, n + 1) :: rest else (k, n) :: bumpCount rest t

/-- The `counts` dictionary after `voxels.forEach(v => counts[v.type] = (counts[v.type]||0)+1)`. -/
def recipeCounts (vs : List Voxel) : List (String × Nat) :=
  vs.foldl (fun acc v => bumpCount acc v.type) []

/-- Dictionary lookup with default `0` (the `counts[t]||0` read). -/
def countOf : List (String × Nat) → String → Nat
  | [], _ => 0
  | (k, n) :: rest, t => if k = t then n else countOf rest t

/-- `layers[v.y][v.type] = (layers[v.y][v.type]||0)+1` (with
`if(!layers[v.y]) layers[v.y] = {}`) on the nested dictionary. -/
def bumpLayer : List (Int × List (String × Nat)) → Int → String →
    List (Int × List (String × Nat))
  | [], y, t => [(y, [(t, 1)])]
  | (k, cs) :: rest, y, t =>
      if k = y then (k, bumpCount cs t) :: rest else (k, cs) :: bumpLayer rest y t

/-- The `layers` dictionary after the voxel `forEach`. -/
def layerTable (vs : List Voxel) : List (Int × List (String × Nat)) :=
  vs.foldl (fun acc v => bumpLayer acc v.y v.type) []

/-- Nested lookup: the per-type count of layer `y`, default `0`. -/
def layerCountOf : List (Int × List (String × Nat)) → Int → String → Nat
  | [], _, _ => 0
  | (k, cs) :: rest, y, t => if k = y then countOf cs t else layerCountOf rest y t

/-- Insertion step of the ascending sort on layer keys. -/
def insertLayer (e : Int × List (String × Nat)) :
    List (Int × List (String × Nat)) → List (Int × List (String × Nat))
  | [] => [e]
  | f :: rest => if e.1 ≤ f.1 then e :: f :: rest else f :: insertLayer e rest

/-- `Object.keys(layers).sort((a,b) => parseInt(a) - parseInt(b))`: the layer
entries in ascending key order. -/
def sortLayers : List (Int × List (String × Nat)) → List (Int × List (String × Nat))
  | [] => []
  | e :: rest => insertLayer e (sortLayers rest)

/-- The rendered layer guide: `sortedYs.forEach((y, idx) => ... Layer idx+1 (Y=y) ...)` —
each group carries its 1-based sequential label, its real Y, and its own
per-type counts. -/
def recipeLayers (vs : List Voxel) : List (Nat × Int × List (String × Nat)) :=
  (sortLayers (layerTable vs)).enum.map (fun p => (p.1 + 1, p.2.1, p.2.2))

/-- Bumping a key adds one to that key's count and leaves other counts alone. -/
theorem countOf_bumpCount (acc : List (String × Nat)) (t0 t : String) :
    countOf (bumpCount acc t0) t = countOf acc t + (if t0 = t then 1 else 0) := by
  induction acc with
  | nil => simp [bumpCount, countOf]
  | cons e rest ih =>
      obtain ⟨k, n⟩ := e
      by_cases hk : k = t0
      · subst hk
        by_cases ht : k = t
        · subst ht; simp [bumpCount, countOf]
        · simp [bumpCount, countOf, ht]
      · simp only [bumpCount, if_neg hk]
        by_cases ht : k = t
        · subst ht
          have h2 : ¬ t0 = k := fun h => hk h.symm
          simp [countOf, h2]
        · simp [countOf, ht, ih]

/-- Folding the `counts` update over a voxel list adds, for each type, the
number of voxels of that type. -/
theorem countOf_foldl (vs : List Voxel) (acc : List (String × Nat)) (t : String) :
    countOf (vs.foldl (fun a v => bumpCount a v.type) acc) t =
      countOf acc t + vs.countP (fun v => v.type == t) := by
  induction vs generalizing acc with
  | nil => simp
  | cons v vs ih =>
      rw [List.foldl_cons, ih (bumpCount acc v.type), countOf_bumpCount, List.countP_cons]
      by_cases h : v.type = t <;> simp [h] <;> omega

/-- Bumping layer `y0`, type `t0` adds one exactly to that (layer, type) cell. -/
theorem layerCountOf_bumpLayer (acc : List (Int × List (String × Nat)))
    (y0 y : Int) (t0 t : String) :
    layerCountOf (bumpLayer acc y0 t0) y t =
      layerCountOf acc y t + (if y0 = y ∧ t0 = t then 1 else 0) := by
  induction acc with
  | nil =>
      by_cases hy : y0 = y
      · subst hy
        simp [bumpLayer, layerCountOf, countOf]
      · simp [bumpLayer, layerCountOf, hy]
  | cons e rest ih =>
      obtain ⟨k, cs⟩ := e
      by_cases hk : k = y0
      · subst hk
        by_cases hy : k = y
        · subst hy
          simp [bumpLayer, layerCountOf, countOf_bumpCount]
        · simp [bumpLayer, layerCountOf, hy]
      · simp only [bumpLayer, if_neg hk]
        by_cases hy : k = y
        · subst hy
          have : ¬ (y0 = k ∧ t0 = t) := fun hc => hk hc.1.symm
          simp [layerCountOf, this]
        · simp [layerCountOf, hy, ih]

/-- Folding the `layers` update over a voxel list adds, for each layer/type
cell, the number of voxels at that Y with that type. -/
theorem layerCountOf_foldl (vs : List Voxel) (acc : List (Int × List (String × Nat)))
    (y : Int) (t : String) :
    layerCountOf (vs.foldl (fun a v => bumpLayer a v.y v.type) acc) y t =
      layerCountOf acc y t + vs.countP (fun v => v.y == y && v.type == t) := by
  induction vs generalizing acc with
  | nil => simp
  | cons v vs ih =>
      rw [List.foldl_cons, ih (bumpLayer acc v.y v.type), layerCountOf_bumpLayer,
        List.countP_cons]
      by_cases hy : v.y = y <;> by_cases ht : v.type = t <;>
        simp [hy, ht] <;> omega

/-- A key is in the bumped dictionary iff it was there or is the bumped key. -/
theorem mem_keys_bumpLayer (acc : List (Int × List (String × Nat)))
    (y t a) :
    a ∈ (bumpLayer acc y t).map Prod.fst ↔ a ∈ acc.map Prod.fst ∨ a = y := by
  induction acc with
  | nil => simp [bumpLayer]
  | cons e rest ih =>
      obtain ⟨k, cs⟩ := e
      by_cases hk : k = y
      · subst hk
        simp [bumpLayer]
        tauto
      · simp only [bumpLayer, if_neg hk, List.map_cons, List.mem_cons, ih]
        tauto

/-- Bumping preserves distinctness of the layer keys. -/
theorem keys_nodup_bumpLayer (acc : List (Int × List (String × Nat))) (y : Int)
    (t : String) (h : (acc.map Prod.fst).Nodup) :
    ((bumpLayer acc y t).map Prod.fst).Nodup := by
  induction acc with
  | nil => simp [bumpLayer]
  | cons e rest ih =>
      obtain ⟨k, cs⟩ := e
      simp only [List.map_cons, List.nodup_cons] at h
      by_cases hk : k = y
      · subst hk
        simpa [bumpLayer, List.nodup_cons] using h
      · simp only [bumpLayer, if_neg hk, List.map_cons, List.nodup_cons]
        refine ⟨?_, ih h.2⟩
        intro hmem
        rcases (mem_keys_bumpLayer rest y t k).mp hmem with hm | rfl
        · exact h.1 hm
        · exact hk rfl

/-- The `layers` dictionary built by the fold has distinct keys. -/
theorem keys_nodup_foldl (vs : List Voxel) (acc : List (Int × List (String × Nat)))
    (h : (acc.map Prod.fst).Nodup) :
    (((vs.foldl (fun a v => bumpLayer a v.y v.type) acc)).map Prod.fst).Nodup := by
  induction vs generalizing acc with
  | nil => exact h
  | cons v vs ih => exact ih _ (keys_nodup_bumpLayer acc v.y v.type h)

/-- Keys of the fold are the keys of the accumulator plus the Ys of the voxels. -/
theorem mem_keys_foldl (vs : List Voxel) (acc : List (Int × List (String × Nat))) (a : Int) :
    a ∈ ((vs.foldl (fun b v => bumpLayer b v.y v.type) acc)).map Prod.fst ↔
      a ∈ acc.map Prod.fst ∨ ∃ v ∈ vs, v.y = a := by
  induction vs generalizing acc with
  | nil => simp
  | cons v vs ih =>
      rw [List.foldl_cons, ih (bumpLayer acc v.y v.type), mem_keys_bumpLayer]
      constructor
      · rintro ((h | rfl) | ⟨w, hw, rfl⟩)
        · exact Or.inl h
        · exact Or.inr ⟨v, List.mem_cons_self v vs, rfl⟩
        · exact Or.inr ⟨w, List.mem_cons_of_mem v hw, rfl⟩
      · rintro (h | ⟨w, hw, rfl⟩)
        · exact Or.inl (Or.inl h)
        · rcases List.mem_cons.mp hw with rfl | hw
          · exact Or.inl (Or.inr rfl)
          · exact Or.inr ⟨w, hw, rfl⟩

/-- A layer key not in the dictionary looks up to zero. -/
theorem layerCountOf_eq_zero (l : List (Int × List (String × Nat))) (y : Int)
    (t : String) (h : y ∉ l.map Prod.fst) : layerCountOf l y t = 0 := by
  induction l with
  | nil => rfl
  | cons e rest ih =>
      obtain ⟨k, cs⟩ := e
      simp only [List.map_cons, List.mem_cons] at h
      push_neg at h
      have hk : k ≠ y := fun hc => h.1 hc.symm
      simp [layerCountOf, hk, ih h.2]

/-- With distinct keys, lookup of a present entry returns that entry's counts. -/
theorem layerCountOf_of_mem (l : List (Int × List (String × Nat))) (y : Int)
    (t : String) (cs : List (String × Nat)) (hnd : (l.map Prod.fst).Nodup)
    (hmem : (y, cs) ∈ l) : layerCountOf l y t = countOf cs t := by
  induction l with
  | nil => cases hmem
  | cons e rest ih =>
      obtain ⟨k, cs'⟩ := e
      simp only [List.map_cons, List.nodup_cons] at hnd
      rcases List.mem_cons.mp hmem with heq | hmem'
      · injection heq with h1 h2
        subst h1
        subst h2
        simp [layerCountOf]
      · have hk : k ≠ y := by
          intro hc
          subst hc
          exact hnd.1 (List.mem_map_of_mem Prod.fst hmem')
        simp [layerCountOf, hk, ih hnd.2 hmem']

/-- Inserting into the sorted list is a permutation of consing. -/
theorem insertLayer_perm (e : Int × List (String × Nat))
    (l : List (Int × List (String × Nat))) : List.Perm (insertLayer e l) (e :: l) := by
  induction l with
  | nil => exact List.Perm.refl _
  | cons f rest ih =>
      rw [insertLayer]
      by_cases h : e.1 ≤ f.1
      · rw [if_pos h]
      · rw [if_neg h]
        exact (ih.cons f).trans (List.Perm.swap e f rest)

/-- The layer sort is a permutation. -/
theorem sortLayers_perm (l : List (Int × List (String × Nat))) :
    List.Perm (sortLayers l) l := by
  induction l with
  | nil => exact List.Perm.refl _
  | cons e rest ih => exact (insertLayer_perm e (sortLayers rest)).trans (ih.cons e)

/-- With distinct keys, nested lookup is invariant under permutation. -/
theorem layerCountOf_perm (l l' : List (Int × List (String × Nat))) (y : Int)
    (t : String) (hp : List.Perm l l') (hnd : (l.map Prod.fst).Nodup) :
    layerCountOf l y t = layerCountOf l' y t := by
  by_cases hy : y ∈ l.map Prod.fst
  · obtain ⟨e, hel, he⟩ := List.mem_map.mp hy
    obtain ⟨y', cs⟩ := e
    have he' : y' = y := he
    rw [he'] at hel
    have hnd' : (l'.map Prod.fst).Nodup := ((hp.map Prod.fst).nodup_iff).mp hnd
    rw [layerCountOf_of_mem l y t cs hnd hel,
      layerCountOf_of_mem l' y t cs hnd' (hp.mem_iff.mp hel)]
  · rw [layerCountOf_eq_zero l y t hy,
      layerCountOf_eq_zero l' y t (fun hmem => hy ((hp.map Prod.fst).mem_iff.mpr hmem))]

/-- Insertion preserves ascending key order. -/
theorem insertLayer_sorted (e : Int × List (String × Nat))
    (l : List (Int × List (String × Nat)))
    (h : List.Pairwise (fun a b => a.1 ≤ b.1) l) :
    List.Pairwise (fun a b => a.1 ≤ b.1) (insertLayer e l) := by
  induction l with
  | nil => simp [insertLayer]
  | cons f rest ih =>
      rw [insertLayer]
      obtain ⟨hf, hrest⟩ := List.pairwise_cons.mp h
      by_cases hef : e.1 ≤ f.1
      · rw [if_pos hef]
        refine List.Pairwise.cons ?_ h
        intro b hb
        rcases List.mem_cons.mp hb with rfl | hb
        · exact hef
        · exact le_trans hef (hf b hb)
      · rw [if_neg hef]
        refine List.Pairwise.cons ?_ (ih hrest)
        intro b hb
        rcases (insertLayer_perm e rest).mem_iff.mp hb with hb'
        rcases List.mem_cons.mp hb' with rfl | hb''
        · exact le_of_lt (lt_of_not_le hef)
        · exact hf b hb''

/-- The layer sort produces ascending keys. -/
theorem sortLayers_sorted (l : List (Int × List (String × Nat))) :
    List.Pairwise (fun a b => a.1 ≤ b.1) (sortLayers l) := by
  induction l with
  | nil => simp [sortLayers]
  | cons e rest ih => exact insertLayer_sorted e (sortLayers rest) ih

/-- The voxel list of the spec's build-guide test. -/
def exampleVoxels : List Voxel :=
  [⟨0, 0, 0, "stone"⟩, ⟨1, 0, 0, "stone"⟩, ⟨0, 1, 0, "dirt"⟩]

/-- C7: the Build-Guide Indexer. (a) The total-materials aggregate maps each
type to the number of voxels of that type (duplicates counted individually).
(b) The layer aggregate maps each (Y, type) cell to the number of voxels at
that Y with that type. (c) Layer groups are in strictly ascending Y order.
(d) The layer keys are exactly the Ys of the placed voxels. (e) Group labels
are the 1-based sequence 1, 2, .... (f) The spec's concrete example yields
totals stone 2, dirt 1 and exactly two layers, Y=0 (stone 2) then Y=1
(dirt 1). (g) An empty voxel list yields empty aggregates. -/
theorem recipeBook_aggregates :
    (∀ (vs : List Voxel) (t : String),
        countOf (recipeCounts vs) t = vs.countP (fun v => v.type == t)) ∧
    (∀ (vs : List Voxel) (y : Int) (t : String),
        layerCountOf (sortLayers (layerTable vs)) y t =
          vs.countP (fun v => v.y == y && v.type == t)) ∧
    (∀ vs : List Voxel,
        List.Pairwise (· < ·) ((sortLayers (layerTable vs)).map Prod.fst)) ∧
    (∀ (vs : List Voxel) (y : Int),
        y ∈ (sortLayers (layerTable vs)).map Prod.fst ↔ ∃ v ∈ vs, v.y = y) ∧
    (∀ vs : List Voxel,
        (recipeLayers vs).map (fun e => e.1) = List.range' 1 (recipeLayers vs).length) ∧
    recipeCounts exampleVoxels = [("stone", 2), ("dirt", 1)] ∧
    recipeLayers exampleVoxels = [(1, 0, [("stone", 2)]), (2, 1, [("dirt", 1)])] ∧
    recipeCounts [] = [] ∧ recipeLayers [] = [] := by
  have hnodup : ∀ vs : List Voxel, ((layerTable vs).map Prod.fst).Nodup := by
    intro vs
    exact keys_nodup_foldl vs [] (by simp)
  refine ⟨?_, ?_, ?_, ?_, ?_, by decide, by decide, rfl, rfl⟩
  · intro vs t
    simpa [recipeCounts, countOf] using countOf_foldl vs [] t
  · intro vs y t
    rw [← layerCountOf_perm (layerTable vs) (sortLayers (layerTable vs)) y t
      (sortLayers_perm (layerTable vs)).symm (hnodup vs)]
    simpa [layerTable, layerCountOf] using layerCountOf_foldl vs [] y t
  · intro vs
    have hle := sortLayers_sorted (layerTable vs)
    have hnd : ((sortLayers (layerTable vs)).map Prod.fst).Nodup :=
      (((sortLayers_perm (layerTable vs)).map Prod.fst).nodup_iff).mpr (hnodup vs)
    have hne : List.Pairwise (fun a b => a.1 ≠ b.1) (sortLayers (layerTable vs)) :=
      (List.pairwise_map).mp hnd
    rw [List.pairwise_map]
    exact (hle.and hne).imp (fun h => lt_of_le_of_ne h.1 h.2)
  · intro vs y
    rw [((sortLayers_perm (layerTable vs)).map Prod.fst).mem_iff]
    simpa [layerTable] using mem_keys_foldl vs [] y
  · intro vs
    unfold recipeLayers
    rw [List.map_map, List.length_map, List.enum_length]
    have h1 : ((sortLayers (layerTable vs)).enum.map Prod.fst) =
        List.range (sortLayers (layerTable vs)).length := List.enum_map_fst _
    have h2 : (fun e => e.1) ∘ (fun p : Nat × Int × List (String × Nat) => (p.1 + 1, p.2.1, p.2.2)) =
        (fun n => n + 1) ∘ (Prod.fst : Nat × (Int × List (String × Nat)) → Nat) := rfl
    rw [h2, ← List.map_map, h1, List.range'_eq_map_range]
    exact List.map_congr_left (fun n _ => Nat.add_comm n 1)

/-! ## Substring machinery for the html.ts helpers

JS strings are modelled on `List Char`; case-insensitive regex matching is
modelled by searching a lowercased copy (as `String.prototype.toLowerCase`
would produce) for lowercase patterns. -/

/-- Lowercase every character (`String.prototype.toLowerCase`). -/
def lowerL (cs : List Char) : List Char := cs.map Char.toLower

/-- The characters matched by the JS regex class `\s` and removed by
`String.prototype.trim`. -/
def jsSpaceChars : List Char :=
  [' ', '\t', '\n', '\r', Char.ofNat 11, Char.ofNat 12,
   Char.ofNat 0xa0, Char.ofNat 0x1680,
   Char.ofNat 0x2000, Char.ofNat 0x2001, Char.ofNat 0x2002, Char.ofNat 0x2003,
   Char.ofNat 0x2004, Char.ofNat 0x2005, Char.ofNat 0x2006, Char.ofNat 0x2007,
   Char.ofNat 0x2008, Char.ofNat 0x2009, Char.ofNat 0x200a,
   Char.ofNat 0x2028, Char.ofNat 0x2029, Char.ofNat 0x202f, Char.ofNat 0x205f,
   Char.ofNat 0x3000, Char.ofNat 0xfeff]

/-- Whether a character is JS whitespace. -/
def isJsSpace (c : Char) : Bool := jsSpaceChars.contains c

/-- `String.prototype.trim`: strip JS whitespace from both ends. -/
def jsTrim (cs : List Char) : List Char :=
  ((cs.dropWhile isJsSpace).reverse.dropWhile isJsSpace).reverse

/-- The least index whose suffix satisfies `p` — the leftmost-match rule of
a JS regex scan. -/
def suffixIdx (p : List Char → Bool) : List Char → Option Nat
  | [] => if p [] then some 0 else none
  | c :: rest => if p (c :: rest) then some 0 else (suffixIdx p rest).map (· + 1)

/-- The least index at which `pat` occurs as a contiguous substring. -/
def firstOcc (pat : List Char) (s : List Char) : Option Nat :=
  suffixIdx (fun t => pat.isPrefixOf t) s

/-- The number of indices at which `pat` occurs as a contiguous substring. -/
def countOcc (pat : List Char) : List Char → Nat
  | [] => if pat.isPrefixOf [] then 1 else 0
  | c :: s => (if pat.isPrefixOf (c :: s) then 1 else 0) + countOcc pat s

/-- `suffixIdx` returns any index that satisfies `p` minimally. -/
theorem suffixIdx_eq_some (p : List Char → Bool) (s : List Char) (i : Nat)
    (h1 : p (s.drop i) = true) (h2 : ∀ j < i, p (s.drop j) = false) :
    suffixIdx p s = some i := by
  induction s generalizing i with
  | nil =>
      match i with
      | 0 => simpa [suffixIdx] using h1
      | i + 1 =>
          have h0 := h2 0 (Nat.succ_pos i)
          simp only [List.drop_nil] at h0 h1
          rw [h0] at h1
          cases h1
  | cons c rest ih =>
      match i with
      | 0 => simpa [suffixIdx] using h1
      | i + 1 =>
          have h0 := h2 0 (Nat.succ_pos i)
          simp only [List.drop_zero] at h0
          rw [suffixIdx, h0, if_neg (by simp)]
          have := ih i (by simpa using h1)
            (fun j hj => by simpa using h2 (j + 1) (Nat.succ_lt_succ hj))
          rw [this]
          rfl

/-- `suffixIdx` fails when no suffix satisfies `p`. -/
theorem suffixIdx_eq_none (p : List Char → Bool) (s : List Char)
    (h : ∀ j, p (s.drop j) = false) : suffixIdx p s = none := by
  induction s with
  | nil =>
      have h0 := h 0
      simp only [List.drop_nil] at h0
      simp [suffixIdx, h0]
  | cons c rest ih =>
      have h0 := h 0
      simp only [List.drop_zero] at h0
      rw [suffixIdx, h0, if_neg (by simp)]
      rw [ih (fun j => by simpa using h (j + 1))]
      rfl

/-- What a successful `suffixIdx` means: the suffix at the result satisfies
`p` and no earlier suffix does. -/
theorem suffixIdx_some_spec (p : List Char → Bool) (s : List Char) (i : Nat)
    (h : suffixIdx p s = some i) :
    p (s.drop i) = true ∧ ∀ j < i, p (s.drop j) = false := by
  induction s generalizing i with
  | nil =>
      by_cases hp : p [] = true
      · rw [suffixIdx, if_pos hp] at h
        cases h
        exact ⟨hp, fun j hj => absurd hj (Nat.not_lt_zero j)⟩
      · rw [suffixIdx, if_neg hp] at h
        cases h
  | cons c rest ih =>
      by_cases hp : p (c :: rest) = true
      · rw [suffixIdx, if_pos hp] at h
        cases h
        exact ⟨hp, fun j hj => absurd hj (Nat.not_lt_zero j)⟩
      · rw [suffixIdx, if_neg hp] at h
        rw [Bool.not_eq_true] at hp
        match hrec : suffixIdx p rest with
        | none =>
            rw [hrec] at h
            cases h
        | some k =>
            rw [hrec] at h
            have hk : k + 1 = i := by simpa using h
            obtain ⟨hq, hmin⟩ := ih k hrec
            subst hk
            refine ⟨by simpa using hq, ?_⟩
            intro j hj
            match j with
            | 0 => simpa using hp
            | j + 1 =>
                have : j < k := by omega
                simpa using hmin j this

/-! ## extractHtmlFromText (html.ts lines 11-29)

The source matches `/(<!DOCTYPE html>|<html)[\s\S]*?<\/html>/i` (first
match), else ``/```(?:html)?\s*([\s\S]*?)```/`` (group, trimmed), else the
trimmed input. The lazy-regex semantics is operationalized as: the earliest
document-start position (neither alternative literal can contain a later
start or an overlapping close, so a close exists after a later start only
if one exists after the earliest start), then the earliest close after it;
similarly for the fence, whose consumed `(?:html)?\s*` region contains no
backtick, so it cannot hide a closing fence. -/

/-- `<!DOCTYPE html>` lowercased, as matched case-insensitively. -/
def doctypePat : List Char := "<!doctype html>".toList

/-- `<html` lowercased. -/
def htmlOpenPat : List Char := "<html".toList

/-- `</html>` lowercased. -/
def htmlClosePat : List Char := "</html>".toList

/-- A fenced code block delimiter of three backticks. -/
def fencePat : List Char := "```".toList

/-- The optional `html` language tag after an opening fence. -/
def htmlWordPat : List Char := "html".toList

/-- The alternation `(<!DOCTYPE html>|<html)` tested at one position of the
lowercased text. -/
def docStartB (t : List Char) : Bool := doctypePat.isPrefixOf t || htmlOpenPat.isPrefixOf t

/-- Fallback branches 2 and 3: extract a fenced code block (optional `html`
tag, then `\s*`, then the lazily matched group up to the closing fence,
trimmed), else return the whole input trimmed. -/
def extractFenced (cs : List Char) : String :=
  match firstOcc fencePat cs with
  | some i =>
      let afterF := cs.drop (i + 3)
      let tagLen := if htmlWordPat.isPrefixOf afterF then 4 else 0
      let afterTag := (afterF.drop tagLen).dropWhile isJsSpace
      match firstOcc fencePat afterTag with
      | some k => ⟨jsTrim (afterTag.take k)⟩
      | none => ⟨jsTrim cs⟩
  | none => ⟨jsTrim cs⟩

/-- `extractHtmlFromText`: `if (!text) return ""`, then the three-branch
search order. Branch 1 slices the original text (byte-identical) from the
earliest document start through the earliest close after it. -/
def extractHtmlFromText (text : String) : String :=
  if text = "" then ""
  else
    let cs := text.toList
    let ls := lowerL cs
    match suffixIdx docStartB ls with
    | some i =>
        let len := if doctypePat.isPrefixOf (ls.drop i) then 15 else 5
        match firstOcc htmlClosePat (ls.drop (i + len)) with
        | some k => ⟨(cs.drop i).take (len + k + 7)⟩
        | none => extractFenced cs
    | none => extractFenced cs

/-- Computation rule of branch 1 of `extractHtmlFromText` under the
search-result equations. -/
theorem extractHtml_eq_doc (text : String) (i k : Nat) (hne : text ≠ "")
    (hidx : suffixIdx docStartB (lowerL text.toList) = some i)
    (hclose : firstOcc htmlClosePat ((lowerL text.toList).drop
        (i + (if doctypePat.isPrefixOf ((lowerL text.toList).drop i) then 15 else 5))) = some k) :
    extractHtmlFromText text =
      ⟨(text.toList.drop i).take
        ((if doctypePat.isPrefixOf ((lowerL text.toList).drop i) then 15 else 5) + k + 7)⟩ := by
  rw [extractHtmlFromText, if_neg hne]
  simp only [hidx, hclose]

/-- Computation rule of branch 3 of `extractHtmlFromText`: with no document
start and no fence anywhere, the result is the trimmed input. -/
theorem extractHtml_eq_trim (text : String) (hne : text ≠ "")
    (hdoc : ∀ k, docStartB ((lowerL text.toList).drop k) = false)
    (hfence : ∀ k, fencePat.isPrefixOf (text.toList.drop k) = false) :
    extractHtmlFromText text = ⟨jsTrim text.toList⟩ := by
  have hf : firstOcc fencePat text.toList = none :=
    suffixIdx_eq_none (fun t => fencePat.isPrefixOf t) text.toList hfence
  rw [extractHtmlFromText, if_neg hne]
  simp only [suffixIdx_eq_none docStartB (lowerL text.toList) hdoc, extractFenced, hf]

/-- C4: `extractDocument` behavior. (a) The empty input yields the empty
string without throwing. (b) If a document start (doctype or `<html`,
case-insensitively) first occurs at `i` and the closing `</html>` first
occurs at `j` past that start literal, the result is exactly the substring
of the original text from `i` through `j + 7` — byte-identical, whatever
prose surrounds it. (c) The spec's fenced example is extracted from its
fences, trimmed. (d) With no document markers and no fence, the result is
the trimmed raw input. -/
theorem extractHtml_behavior :
    extractHtmlFromText "" = "" ∧
    (∀ (text : String) (i j : Nat),
        docStartB ((lowerL text.toList).drop i) = true →
        (∀ i' < i, docStartB ((lowerL text.toList).drop i') = false) →
        i + (if doctypePat.isPrefixOf ((lowerL text.toList).drop i) then 15 else 5) ≤ j →
        htmlClosePat.isPrefixOf ((lowerL text.toList).drop j) = true →
        (∀ j' < j, i + (if doctypePat.isPrefixOf ((lowerL text.toList).drop i) then 15 else 5) ≤ j' →
            htmlClosePat.isPrefixOf ((lowerL text.toList).drop j') = false) →
        extractHtmlFromText text = ⟨(text.toList.drop i).take (j - i + 7)⟩) ∧
    extractHtmlFromText "```html\n<div>x</div>\n```" = "<div>x</div>" ∧
    (∀ text : String, text ≠ "" →
        (∀ k < text.toList.length, docStartB ((lowerL text.toList).drop k) = false) →
        (∀ k < text.toList.length, fencePat.isPrefixOf (text.toList.drop k) = false) →
        extractHtmlFromText text = ⟨jsTrim text.toList⟩) := by
  refine ⟨rfl, ?_, by decide, ?_⟩
  · intro text i j h1 h2 h3 h4 h5
    have hne : text ≠ "" := by
      intro he
      subst he
      rw [show lowerL (String.toList "") = [] from rfl, List.drop_nil] at h1
      cases h1
    have hidx : suffixIdx docStartB (lowerL text.toList) = some i :=
      suffixIdx_eq_some _ _ i h1 h2
    have hclose : firstOcc htmlClosePat ((lowerL text.toList).drop
        (i + (if doctypePat.isPrefixOf ((lowerL text.toList).drop i) then 15 else 5))) =
        some (j - (i + (if doctypePat.isPrefixOf ((lowerL text.toList).drop i) then 15 else 5))) := by
      apply suffixIdx_eq_some
      · rw [List.drop_drop]
        have hgen : ∀ a : Nat, a = j →
            htmlClosePat.isPrefixOf ((lowerL text.toList).drop a) = true := by
          intro a ha
          rw [ha]
          exact h4
        exact hgen _ (by omega)
      · intro m hm
        rw [List.drop_drop]
        exact h5 _ (by omega) (by omega)
    rw [extractHtml_eq_doc text i _ hne hidx hclose]
    have harith :
        (if doctypePat.isPrefixOf ((lowerL text.toList).drop i) then 15 else 5) +
          (j - (i + (if doctypePat.isPrefixOf ((lowerL text.toList).drop i) then 15 else 5))) + 7 =
          j - i + 7 := by
      omega
    rw [harith]
  · intro text hne hdoc hfence
    apply extractHtml_eq_trim text hne
    · intro k
      by_cases hk : k < text.toList.length
      · exact hdoc k hk
      · rw [List.drop_eq_nil_of_le (by simpa [lowerL] using Nat.le_of_not_lt hk)]
        rfl
    · intro k
      by_cases hk : k < text.toList.length
      · exact hfence k hk
      · rw [List.drop_eq_nil_of_le (Nat.le_of_not_lt hk)]
        rfl

/-- Witness for `extractHtml_behavior` at concrete inputs: a document with
surrounding prose is sliced byte-identically, and plain text is trimmed. -/
theorem extractHtml_behavior_witness :
    extractHtmlFromText "ab<html>x</html>cd" = "<html>x</html>" ∧
    extractHtmlFromText " hello " = "hello" := by
  constructor
  · have h := extractHtml_behavior.2.1 "ab<html>x</html>cd" 2 9
      (by decide) (by decide) (by decide) (by decide) (by decide)
    rw [h]
    decide
  · have h := extractHtml_behavior.2.2.2 " hello " (by decide) (by decide) (by decide)
    rw [h]
    decide

/-! ## hideBodyText (html.ts lines 35-67)

`hideBodyText` injects a fixed style block before the first `</head>`
(case-insensitive) if the document contains one, else before the first
`</body>`, else appends it. `String.prototype.replace` with a non-global
regex replaces only the first match. -/

/-- The injected `cssToInject` style block, byte for byte as in the source
template literal. -/
def cssToInject : String :=
  "\n    <style>\n      /* Hides common overlay IDs and classes used in Three.js examples and generated code */\n      #info, #loading, #ui, #instructions, .label, .overlay, #description \x7b\n        display: none !important;\n        opacity: 0 !important;\n        pointer-events: none !important;\n        visibility: hidden !important;\n      \x7d\n      /* Exception for our build instructions panel */\n      #mc-build-instructions \x7b\n        opacity: 1 !important;\n        pointer-events: auto !important;\n        visibility: visible !important;\n        /* Don\x27t force display:block here, let JS toggle it */\n      \x7d\n      /* Ensure the body doesn\x27t show selected text cursor interaction outside canvas */\n      body \x7b\n        user-select: none !important;\n      \x7d\n    </style>\n  "

/-- `</head>` lowercased. -/
def headClosePat : List Char := "</head>".toList

/-- `</body>` lowercased. -/
def bodyClosePat : List Char := "</body>".toList

/-- `String.prototype.replace` with a case-insensitive non-global literal
pattern: splice `repl` over the first case-insensitive occurrence, if any. -/
def replaceFirstCI (s : String) (patLower : List Char) (repl : String) : String :=
  match firstOcc patLower (lowerL s.toList) with
  | some i => ⟨s.toList.take i ++ repl.toList ++ s.toList.drop (i + patLower.length)⟩
  | none => s

/-- `hideBodyText`: inject before the close of the head if present
(`html.toLowerCase().includes('</head>')`), else before the close of the
body, else append. -/
def hideBodyText (html : String) : String :=
  if (firstOcc headClosePat (lowerL html.toList)).isSome then
    replaceFirstCI html headClosePat (cssToInject ++ "</head>")
  else if (firstOcc bodyClosePat (lowerL html.toList)).isSome then
    replaceFirstCI html bodyClosePat (cssToInject ++ "</body>")
  else html ++ cssToInject

/-! ### Occurrence counting lemmas -/

/-- A prefix is no longer than the list. -/
theorem isPrefixOf_length_le (pat l : List Char) (h : pat.isPrefixOf l = true) :
    pat.length ≤ l.length :=
  (List.isPrefixOf_iff_prefix.mp h).length_le

/-- A pattern that fits inside `X` is a prefix of `X ++ Y` iff it is a
prefix of `X`. -/
theorem isPrefixOf_append_left (pat X Y : List Char) (hlen : pat.length ≤ X.length) :
    pat.isPrefixOf (X ++ Y) = pat.isPrefixOf X := by
  by_cases h : pat.isPrefixOf X = true
  · rw [h, List.isPrefixOf_iff_prefix]
    exact (List.isPrefixOf_iff_prefix.mp h).trans (List.prefix_append X Y)
  · rw [Bool.not_eq_true] at h
    rw [h]
    by_contra hcon
    rw [Bool.not_eq_false] at hcon
    have hp := List.prefix_iff_eq_take.mp (List.isPrefixOf_iff_prefix.mp hcon)
    rw [List.take_append_eq_append_take, Nat.sub_eq_zero_of_le hlen, List.take_zero,
      List.append_nil] at hp
    have : pat.isPrefixOf X = true :=
      List.isPrefixOf_iff_prefix.mpr (hp ▸ List.take_prefix pat.length X)
    rw [h] at this
    cases this

/-- A pattern overhanging `X` splits: `X` is the pattern's initial segment
and the remainder is a prefix of `Y`. -/
theorem isPrefixOf_append_split (pat X Y : List Char)
    (h : pat.isPrefixOf (X ++ Y) = true) (hlen : X.length < pat.length) :
    X = pat.take X.length ∧ (pat.drop X.length).isPrefixOf Y = true := by
  obtain ⟨t, ht⟩ := List.isPrefixOf_iff_prefix.mp h
  constructor
  · have := congrArg (List.take X.length) ht
    rw [List.take_append_eq_append_take, Nat.sub_eq_zero_of_le (le_of_lt hlen),
      List.take_zero, List.append_nil, List.take_append_eq_append_take,
      Nat.sub_self, List.take_zero, List.append_nil, List.take_length] at this
    exact this.symm
  · have := congrArg (List.drop X.length) ht
    rw [List.drop_append_eq_append_drop, Nat.sub_eq_zero_of_le (le_of_lt hlen),
      List.drop_zero, List.drop_append_eq_append_drop, Nat.sub_self, List.drop_zero,
      List.drop_length, List.nil_append] at this
    rw [List.isPrefixOf_iff_prefix]
    exact ⟨t, this⟩

/-- A nonempty prefix of a cons starts with the head. -/
theorem isPrefixOf_head (p : List Char) (y : Char) (t : List Char)
    (h : p.isPrefixOf (y :: t) = true) (hne : p ≠ []) : p.head? = some y := by
  match p, hne with
  | a :: p2, _ =>
      simp only [List.isPrefixOf, Bool.and_eq_true, beq_iff_eq] at h
      simp [h.1]

/-- A nonempty pattern never occurs in the empty list. -/
theorem countOcc_nil (pat : List Char) (h : pat ≠ []) : countOcc pat [] = 0 := by
  match pat, h with
  | a :: p2, _ => rfl

/-- No occurrences at any suffix means a zero count. -/
theorem countOcc_eq_zero_of (pat s : List Char) (hpat : pat ≠ [])
    (h : ∀ j, pat.isPrefixOf (s.drop j) = false) : countOcc pat s = 0 := by
  induction s with
  | nil => exact countOcc_nil pat hpat
  | cons c s ih =>
      have h0 := h 0
      rw [List.drop_zero] at h0
      rw [countOcc, h0, if_neg (by simp)]
      rw [ih (fun j => by simpa using h (j + 1))]

/-- Counting distributes over an append with no straddling occurrence. -/
theorem countOcc_append (pat A B : List Char) (hpat : pat ≠ [])
    (hstr : ∀ k, k < A.length → A.length < k + pat.length →
        pat.isPrefixOf (A.drop k ++ B) = false) :
    countOcc pat (A ++ B) = countOcc pat A + countOcc pat B := by
  induction A with
  | nil => rw [List.nil_append, countOcc_nil pat hpat, Nat.zero_add]
  | cons c A2 ih =>
      have hhead : pat.isPrefixOf (c :: (A2 ++ B)) = pat.isPrefixOf (c :: A2) := by
        rw [← List.cons_append]
        by_cases hl : pat.length ≤ (c :: A2).length
        · exact isPrefixOf_append_left pat (c :: A2) B hl
        · have hr : pat.isPrefixOf (c :: A2) = false := by
            by_contra hcon
            rw [Bool.not_eq_false] at hcon
            exact hl (isPrefixOf_length_le _ _ hcon)
          have hstr0 := hstr 0 (by simp) (by push_neg at hl; omega)
          rw [List.drop_zero] at hstr0
          rw [hstr0, hr]
      have ih2 := ih (fun k h1 h2 => by
        have := hstr (k + 1) (by simpa using Nat.succ_lt_succ h1) (by
          simp only [List.length_cons]
          omega)
        simpa using this)
      rw [List.cons_append, countOcc, ih2, countOcc, hhead]
      omega

/-- The lowercased character list of the injected style block. -/
def cssLower : List Char := lowerL cssToInject.toList

/-- `</head>` cannot straddle the boundary into the style block: the
pattern's tail would have to start with the block's first character `\n`. -/
theorem noStraddle_into_css (A Z : List Char) (k : Nat)
    (h1 : k < A.length) (h2 : A.length < k + 7) :
    headClosePat.isPrefixOf (A.drop k ++ (cssLower ++ Z)) = false := by
  by_contra hcon
  rw [Bool.not_eq_false] at hcon
  have hlt : (A.drop k).length < headClosePat.length := by
    rw [List.length_drop]
    have h7 : headClosePat.length = 7 := by decide
    omega
  obtain ⟨-, hpre⟩ := isPrefixOf_append_split _ _ _ hcon hlt
  have hcssc : cssLower ++ Z = '\n' :: (cssLower.tail ++ Z) := by
    rw [show cssLower = '\n' :: cssLower.tail from by decide]
    rfl
  rw [hcssc] at hpre
  have hm1 : 1 ≤ (A.drop k).length := by rw [List.length_drop]; omega
  have hm6 : (A.drop k).length ≤ 6 := by
    rw [List.length_drop]
    have h7 : headClosePat.length = 7 := by decide
    rw [h7] at hlt
    rw [List.length_drop] at hlt
    omega
  set m := (A.drop k).length with hmdef
  interval_cases m <;>
    exact absurd (isPrefixOf_head _ _ _ hpre (by decide)) (by decide)

/-- `</head>` cannot straddle out of the style block: no short suffix of the
block is an initial segment of the pattern. -/
theorem noStraddle_out_of_css (Z : List Char) (k : Nat)
    (h1 : k < cssLower.length) (h2 : cssLower.length < k + 7) :
    headClosePat.isPrefixOf (cssLower.drop k ++ Z) = false := by
  by_contra hcon
  rw [Bool.not_eq_false] at hcon
  have hlen : cssLower.length = 768 := by decide
  have hlt : (cssLower.drop k).length < headClosePat.length := by
    rw [List.length_drop]
    have h7 : headClosePat.length = 7 := by decide
    omega
  obtain ⟨heq, -⟩ := isPrefixOf_append_split _ _ _ hcon hlt
  have hk1 : 762 ≤ k := by omega
  have hk2 : k ≤ 767 := by omega
  interval_cases k <;> exact absurd heq (by decide)

/-- `</head>` cannot straddle out of a literal `</head>`: no proper
nonempty suffix of the pattern is one of its initial segments. -/
theorem noStraddle_out_of_head (Z : List Char) (k : Nat)
    (h1 : k < headClosePat.length) (h2 : headClosePat.length < k + 7) :
    headClosePat.isPrefixOf (headClosePat.drop k ++ Z) = false := by
  by_contra hcon
  rw [Bool.not_eq_false] at hcon
  have h7 : headClosePat.length = 7 := by decide
  have hlt : (headClosePat.drop k).length < headClosePat.length := by
    rw [List.length_drop]
    omega
  obtain ⟨heq, -⟩ := isPrefixOf_append_split _ _ _ hcon hlt
  have hk1 : 1 ≤ k := by omega
  have hk2 : k ≤ 6 := by rw [h7] at h1; omega
  interval_cases k <;> exact absurd heq (by decide)

/-- C6 counterexample: an input with two `</head>` tags still has two of
them after injection — the output does not contain exactly one `</head>`. -/
theorem hideBodyText_two_heads_cex :
    (firstOcc headClosePat (lowerL "</head></head>".toList)).isSome = true ∧
    countOcc headClosePat (lowerL (hideBodyText "</head></head>").toList) = 2 := by
  constructor
  · decide
  · decide

/-- C6 (amended): (a) for any input with exactly one `</head>` occurrence
(case-insensitive), the output is the input with the style block spliced in
directly before that `</head>` — so the output still contains exactly one
`</head>` and the injected style block appears before it; (b) with no
`</head>` but a `</body>`, the block is spliced in before the first
`</body>`; (c) with neither, the block is appended at the end with no other
change. (Inputs with several `</head>` tags keep all of them; only the
first is preceded by the block.) -/
theorem hideBodyText_injection :
    (∀ (html : String) (i : Nat),
        firstOcc headClosePat (lowerL html.toList) = some i →
        countOcc headClosePat (lowerL html.toList) = 1 →
        hideBodyText html =
          ⟨html.toList.take i ++ cssToInject.toList ++ headClosePat ++
            html.toList.drop (i + 7)⟩ ∧
        countOcc headClosePat (lowerL (hideBodyText html).toList) = 1) ∧
    (∀ (html : String) (i : Nat),
        firstOcc headClosePat (lowerL html.toList) = none →
        firstOcc bodyClosePat (lowerL html.toList) = some i →
        hideBodyText html =
          ⟨html.toList.take i ++ cssToInject.toList ++ bodyClosePat ++
            html.toList.drop (i + 7)⟩) ∧
    (∀ html : String,
        firstOcc headClosePat (lowerL html.toList) = none →
        firstOcc bodyClosePat (lowerL html.toList) = none →
        hideBodyText html = html ++ cssToInject) := by
  refine ⟨?_, ?_, ?_⟩
  · intro html i hfo hcount
    obtain ⟨hocc, hmin⟩ := suffixIdx_some_spec _ _ i hfo
    have h7 : headClosePat.length = 7 := by decide
    have hlenLe := isPrefixOf_length_le _ _ hocc
    rw [h7, List.length_drop] at hlenLe
    -- structural result
    have hostruct : hideBodyText html =
        ⟨html.toList.take i ++ cssToInject.toList ++ headClosePat ++
          html.toList.drop (i + 7)⟩ := by
      rw [hideBodyText, if_pos (by rw [hfo]; rfl)]
      rw [replaceFirstCI, hfo]
      show (⟨html.toList.take i ++ (cssToInject ++ "</head>").toList ++
        html.toList.drop (i + headClosePat.length)⟩ : String) = _
      rw [h7]
      have happ : (cssToInject ++ "</head>").toList =
          cssToInject.toList ++ headClosePat := by decide
      rw [happ]
      simp [List.append_assoc]
    refine ⟨hostruct, ?_⟩
    -- decompose the lowercased input around the unique occurrence
    have hDi : (lowerL html.toList).drop i =
        headClosePat ++ (lowerL html.toList).drop (i + 7) := by
      have htake : headClosePat = ((lowerL html.toList).drop i).take 7 := by
        have hp := List.prefix_iff_eq_take.mp (List.isPrefixOf_iff_prefix.mp hocc)
        rwa [h7] at hp
      conv_lhs => rw [← List.take_append_drop 7 ((lowerL html.toList).drop i)]
      rw [← htake, List.drop_drop]
    have hLsplit : lowerL html.toList =
        (lowerL html.toList).take i ++
          (headClosePat ++ (lowerL html.toList).drop (i + 7)) := by
      conv_lhs => rw [← List.take_append_drop i (lowerL html.toList), hDi]
    -- no occurrence strictly inside the prefix
    have hA0 : countOcc headClosePat ((lowerL html.toList).take i) = 0 := by
      apply countOcc_eq_zero_of _ _ (by decide)
      intro j
      by_contra hcon
      rw [Bool.not_eq_false] at hcon
      have hle := isPrefixOf_length_le _ _ hcon
      rw [h7, List.length_drop, List.length_take] at hle
      have hmle : min i (lowerL html.toList).length ≤ i := Nat.min_le_left _ _
      have hji : j < i := by omega
      have hlift : headClosePat.isPrefixOf ((lowerL html.toList).drop j) = true := by
        have hpre := List.isPrefixOf_iff_prefix.mp hcon
        rw [List.drop_take] at hpre
        exact List.isPrefixOf_iff_prefix.mpr (hpre.trans (List.take_prefix _ _))
      rw [hmin j hji] at hlift
      cases hlift
    -- count of the pattern-plus-tail block
    have hhR : countOcc headClosePat
        (headClosePat ++ (lowerL html.toList).drop (i + 7)) =
        1 + countOcc headClosePat ((lowerL html.toList).drop (i + 7)) := by
      rw [countOcc_append _ _ _ (by decide) (fun k h1 h2 => noStraddle_out_of_head _ k h1 h2)]
      rw [show countOcc headClosePat headClosePat = 1 from by decide]
    -- the input count decomposes, forcing the tail count to zero
    have hin : countOcc headClosePat (lowerL html.toList) =
        countOcc headClosePat ((lowerL html.toList).take i) +
          countOcc headClosePat
            (headClosePat ++ (lowerL html.toList).drop (i + 7)) := by
      conv_lhs => rw [hLsplit]
      apply countOcc_append _ _ _ (by decide)
      intro k h1 h2
      have hAB : ((lowerL html.toList).take i).drop k ++
          (headClosePat ++ (lowerL html.toList).drop (i + 7)) =
          (lowerL html.toList).drop k := by
        conv_rhs => rw [hLsplit]
        rw [List.drop_append_eq_append_drop,
          Nat.sub_eq_zero_of_le (le_of_lt h1), List.drop_zero]
      rw [hAB]
      have hki : k < i :=
        lt_of_lt_of_le h1 (by rw [List.length_take]; exact Nat.min_le_left _ _)
      exact hmin k hki
    have hR0 : countOcc headClosePat ((lowerL html.toList).drop (i + 7)) = 0 := by
      omega
    -- lowercased output
    have hlow : lowerL (hideBodyText html).toList =
        (lowerL html.toList).take i ++
          (cssLower ++ (headClosePat ++ (lowerL html.toList).drop (i + 7))) := by
      rw [hostruct]
      show lowerL (html.toList.take i ++ cssToInject.toList ++ headClosePat ++
        html.toList.drop (i + 7)) = _
      simp only [lowerL, List.map_append, List.map_take, List.map_drop]
      rw [show List.map Char.toLower headClosePat = headClosePat from by decide]
      simp only [cssLower, lowerL, List.append_assoc]
    -- count the output
    rw [hlow]
    rw [countOcc_append _ _ _ (by decide) (fun k h1 h2 =>
      noStraddle_into_css _ _ k h1 h2)]
    rw [countOcc_append _ _ _ (by decide) (fun k h1 h2 =>
      noStraddle_out_of_css _ k h1 h2)]
    rw [show countOcc headClosePat cssLower = 0 from by decide, hA0, hhR, hR0]
  · intro html i hhead hbody
    rw [hideBodyText, if_neg (by rw [hhead]; simp), if_pos (by rw [hbody]; rfl)]
    rw [replaceFirstCI, hbody]
    show (⟨html.toList.take i ++ (cssToInject ++ "</body>").toList ++
      html.toList.drop (i + bodyClosePat.length)⟩ : String) = _
    rw [show bodyClosePat.length = 7 from by decide]
    rw [show (cssToInject ++ "</body>").toList = cssToInject.toList ++ bodyClosePat
      from by decide]
    simp [List.append_assoc]
  · intro html hhead hbody
    rw [hideBodyText, if_neg (by rw [hhead]; simp), if_neg (by rw [hbody]; simp)]

/-- Witness for `hideBodyText_injection` at concrete inputs: a well-formed
single-`</head>` document keeps exactly one `</head>`, and a document with
neither closing tag gets the block appended. -/
theorem hideBodyText_injection_witness :
    countOcc headClosePat (lowerL (hideBodyText "<head></head>").toList) = 1 ∧
    hideBodyText "abc" = "abc" ++ cssToInject := by
  constructor
  · exact (hideBodyText_injection.1 "<head></head>" 6 (by decide) (by decide)).2
  · exact hideBodyText_injection.2.2 "abc" (by decide) (by decide)

/-! ## zoomCamera (html.ts lines 74-85)

`zoomCamera` rewrites every non-overlapping match of
`/camera\.position\.set\(\s*(-?\d*\.?\d+)\s*,\s*(-?\d*\.?\d+)\s*,\s*(-?\d*\.?\d+)\s*\)/g`
with `camera.position.set(${x*f}, ${y*f}, ${z*f})`. The global scan is
modelled left to right: at each position try the full literal-call match
(deterministic, since the regex's greedy/lazy parts cannot backtrack past
the fixed separators here), emit the replacement and continue after the
match, else copy one character. Numbers are exact rationals, represented as
explicit numerator/denominator pairs (`Frac`) so concrete runs reduce in
the kernel; `renderNum` matches the JS number-to-string conversion for
integral values (the cases the claims exercise) and prints the exact
decimal expansion, up to 30 digits, otherwise. -/

/-- An exact rational as a numerator/denominator pair (denominator positive
by construction, not necessarily reduced). -/
structure Frac where
  num : Int
  den : Nat
deriving DecidableEq, Repr

/-- Exact product of two rationals. -/
def Frac.mul (a b : Frac) : Frac := ⟨a.num * b.num, a.den * b.den⟩

/-- The decimal digits of a numeric literal as a natural number
(`parseFloat` on the integer or fraction part). -/
def digitsToNat (ds : List Char) : Nat :=
  ds.foldl (fun a c => a * 10 + (c.toNat - 48)) 0

/-- The exact rational value of a matched numeric literal `[-]ip[.fp]`. -/
def mkNumFrac (neg : Bool) (ip fp : List Char) : Frac :=
  let n : Int := (digitsToNat ip : Int) * (10 ^ fp.length : Nat) + (digitsToNat fp : Int)
  ⟨if neg then -n else n, 10 ^ fp.length⟩

/-- Parse `-?\d*\.?\d+` at the head of the input (greedy digits, optional
dot only when digits follow it, as the regex backtracking settles), returning
the value and the rest. -/
def parseNumTok (cs : List Char) : Option (Frac × List Char) :=
  let neg := match cs with
    | '-' :: _ => true
    | _ => false
  let cs1 := if neg then cs.drop 1 else cs
  let d1 := cs1.takeWhile Char.isDigit
  let r1 := cs1.dropWhile Char.isDigit
  match r1 with
  | '.' :: r2 =>
      let d2 := r2.takeWhile Char.isDigit
      if d2 = [] then
        if d1 = [] then none
        else some (mkNumFrac neg d1 [], r1)
      else some (mkNumFrac neg d1 d2, r2.dropWhile Char.isDigit)
  | _ => if d1 = [] then none else some (mkNumFrac neg d1 [], r1)

/-- The literal head of the camera-call pattern. -/
def camPat : List Char := "camera.position.set(".toList

/-- Try the full camera-call match at the head of the input: the literal,
then three `\s*`-padded numeric literals separated by commas, then `)`.
Returns the three values and the input after the match. -/
def tryCamMatch (cs : List Char) : Option (Frac × Frac × Frac × List Char) :=
  if camPat.isPrefixOf cs then
    match parseNumTok ((cs.drop camPat.length).dropWhile isJsSpace) with
    | none => none
    | some (x, r1) =>
        match r1.dropWhile isJsSpace with
        | ',' :: r2 =>
            match parseNumTok (r2.dropWhile isJsSpace) with
            | none => none
            | some (y, r3) =>
                match r3.dropWhile isJsSpace with
                | ',' :: r4 =>
                    match parseNumTok (r4.dropWhile isJsSpace) with
                    | none => none
                    | some (z, r5) =>
                        match r5.dropWhile isJsSpace with
                        | ')' :: r6 => some (x, y, z, r6)
                        | _ => none
                | _ => none
        | _ => none
  else none

/-- One digit character. -/
def digitChar (n : Nat) : Char := Char.ofNat (48 + n)

/-- Decimal expansion of a proper fraction `r / den` by long division, up to
`fuel` digits. -/
def fracDigits (den : Nat) : Nat → Nat → List Char
  | 0, _ => []
  | fuel + 1, r =>
      if r = 0 then []
      else digitChar (r * 10 / den) :: fracDigits den fuel (r * 10 % den)

/-- The JS string interpolation `${n}` of a number: integral values print
with no decimal point, others as sign, integer part, dot, fraction digits. -/
def renderNum (q : Frac) : String :=
  if q.num % (q.den : Int) = 0 then toString (q.num / (q.den : Int))
  else
    (if q.num < 0 then "-" else "") ++ toString (q.num.natAbs / q.den) ++ "." ++
      ⟨fracDigits q.den 30 (q.num.natAbs % q.den)⟩

/-- The left-to-right global replacement scan, with enough fuel. -/
def zoomGo (f : Frac) : Nat → List Char → List Char
  | 0, cs => cs
  | _ + 1, [] => []
  | fuel + 1, c :: cs =>
      match tryCamMatch (c :: cs) with
      | some (x, y, z, rest) =>
          "camera.position.set(".toList ++ (renderNum (x.mul f)).toList ++
            ", ".toList ++ (renderNum (y.mul f)).toList ++ ", ".toList ++
            (renderNum (z.mul f)).toList ++ [')'] ++ zoomGo f fuel rest
      | none => c :: zoomGo f fuel cs

/-- `zoomCamera(html, zoomFactor)`: each step of the scan consumes at least
one character, so fuel equal to the length suffices. -/
def zoomCamera (html : String) (zoomFactor : Frac) : String :=
  ⟨zoomGo zoomFactor html.toList.length html.toList⟩

/-- C5: camera rescaling. (a) The spec's example
`camera.position.set(10, 20, -30)` with factor `0.5` becomes
`camera.position.set(5, 10, -15)`. (b) A string with two such calls
rescales both independently, leaving the surrounding text untouched.
(c) A string containing no `camera.position.set(` literal anywhere is
returned unchanged. -/
theorem zoomCamera_behavior :
    zoomCamera "camera.position.set(10, 20, -30)" ⟨1, 2⟩ =
      "camera.position.set(5, 10, -15)" ∧
    zoomCamera "a camera.position.set(10, 20, -30); b camera.position.set(2, 4, 6);" ⟨1, 2⟩ =
      "a camera.position.set(5, 10, -15); b camera.position.set(1, 2, 3);" ∧
    (∀ (html : String) (f : Frac),
        (∀ k < html.toList.length, camPat.isPrefixOf (html.toList.drop k) = false) →
        zoomCamera html f = html) := by
  refine ⟨by decide, by decide, ?_⟩
  intro html f h
  obtain ⟨d⟩ := html
  have hall : ∀ k, camPat.isPrefixOf (d.drop k) = false := by
    intro k
    by_cases hk : k < d.length
    · exact h k hk
    · rw [List.drop_eq_nil_of_le (Nat.le_of_not_lt hk)]
      rfl
  have hgen : ∀ (fuel : Nat) (cs : List Char),
      (∀ k, camPat.isPrefixOf (cs.drop k) = false) → zoomGo f fuel cs = cs := by
    intro fuel
    induction fuel with
    | zero => intro cs _; rfl
    | succ fuel ih =>
        intro cs hcs
        cases cs with
        | nil => rfl
        | cons c cs2 =>
            have h0 := hcs 0
            rw [List.drop_zero] at h0
            have hm : tryCamMatch (c :: cs2) = none := by
              rw [tryCamMatch, if_neg (by rw [h0]; simp)]
            rw [zoomGo, hm]
            rw [ih cs2 (fun k => by simpa using hcs (k + 1))]
  show (⟨zoomGo f d.length d⟩ : String) = ⟨d⟩
  rw [hgen d.length d hall]

/-- Witness for `zoomCamera_behavior` at a concrete input with no camera
call: the string comes back unchanged. -/
theorem zoomCamera_behavior_witness :
    zoomCamera "hello world" ⟨7, 10⟩ = "hello world" :=
  zoomCamera_behavior.2.2 "hello world" ⟨7, 10⟩ (by decide)

end VoxelPipeline
